import Mathlib

/-!
A shallow embedding of the repertoire-computation core of `cyphi`
(`src/cyphi/subsystem.py`): the `Subsystem` class with its
`cause_repertoire`, `effect_repertoire`, the convenience wrappers
`uc_cause_repertoire` / `unconstrained_effect_repertoire`, and the
equality method `__eq__`.

Modelling conventions:

* A numpy ndarray whose axes all have size 1 or 2 (the only shapes this
  code produces, apart from the `np.array([])` sentinel) is modelled as a
  `Tensor ι`: an axis-size function `shape : ι → ℕ` together with a total
  value function `val : (ι → Fin 2) → ℚ`.  Every constructor below keeps
  `val` constant along axes it collapses to size 1, so `val` carries the
  broadcast extension of the array and elementwise numpy broadcasting
  becomes pointwise multiplication.
* Floating point numbers are modelled as exact rationals `ℚ`.
* `cause_repertoire` operates on `n`-axis arrays, so it uses `ι = Fin n`;
  `effect_repertoire` operates on `2n`-axis arrays (a current-state block
  followed by a future-purview block), modelled with `ι = Fin n ⊕ Fin n`
  (`Sum.inl` = current-state block, `Sum.inr` = future block).
* Python lists of `Node` objects are modelled as `List (Fin n)` of node
  indices; the set `self.nodes` is a `Finset (Fin n)`; binary state
  vectors are `Fin n → Fin 2`.
* Python iteration over a `set` has unspecified order; the loops over
  node sets are embedded as folds over the canonical ordering
  `List.finRange n` filtered by the set's membership predicate.  Each
  loop body acts on a distinct tensor axis per element, so the choice of
  order does not affect the result.
* numpy index errors (indexing a size-1 axis at position 1) and the
  `ValueError` raised by `bool()` of a multi-element comparison array are
  modelled with `Except String`.
-/

namespace Cyphi

/-- An ndarray with axes indexed by `ι`, every axis of size `shape i`
(always 1 or 2 here), and entries `val`.  `val` is total on all binary
multi-indices: on an axis of size 1 the constructors below make `val`
independent of that coordinate, i.e. `val` is the broadcast extension of
the stored array. -/
structure Tensor (ι : Type) where
  shape : ι → ℕ
  val : (ι → Fin 2) → ℚ

instance {ι : Type} [DecidableEq ι] [Fintype ι] : DecidableEq (Tensor ι) :=
  fun a b =>
    decidable_of_iff (a.shape = b.shape ∧ a.val = b.val)
      (by cases a; cases b; simp)

/-- The array `np.ones(sh)`. -/
def ones {ι : Type} (sh : ι → ℕ) : Tensor ι := ⟨sh, fun _ => 1⟩

/-- Broadcasting product `np.multiply(a, b)`: elementwise product with broadcasting of
singleton axes (numpy broadcast shape is the axiswise max when all sizes
are 1 or 2; the broadcast values are already carried by `val`). -/
def tmul {ι : Type} (a b : Tensor ι) : Tensor ι :=
  ⟨fun i => max (a.shape i) (b.shape i), fun idx => a.val idx * b.val idx⟩

/-- Modelled from the spec: `utils.marginalize_out(node, tensor)` is not
part of the given source.  Per §4.3 it collapses the node's axis to size
1 by averaging its two slices under a uniform prior over that node's
value, leaving all other axes unchanged (a no-op on an already-singleton
axis, by the broadcast-extension convention on `val`). -/
def marginalize_out {ι : Type} [DecidableEq ι] (x : ι) (t : Tensor ι) : Tensor ι :=
  ⟨Function.update t.shape x 1,
   fun idx => (t.val (Function.update idx x 0) + t.val (Function.update idx x 1)) / 2⟩

/-- Conditioning by numpy indexing with `[v]` (a singleton fancy index)
or `[v, np.newaxis]`: collapse axis `x` to the single slice at `v`,
keeping the axis with size 1.  This is the unchecked operation; the
in-range check of numpy is `condition_checked`. -/
def condition_at {ι : Type} [DecidableEq ι] (x : ι) (v : Fin 2) (t : Tensor ι) : Tensor ι :=
  ⟨Function.update t.shape x 1, fun idx => t.val (Function.update idx x v)⟩

/-- numpy indexing of axis `x` at position `v`: raises `IndexError` when
`v` is out of range for that axis (the case `shape x = 1`, `v = 1`). -/
def condition_checked {ι : Type} [DecidableEq ι] (x : ι) (v : Fin 2) (t : Tensor ι) :
    Except String (Tensor ι) :=
  if (v : ℕ) < t.shape x then .ok (condition_at x v t) else .error "IndexError"

/-- Elementwise `np.divide(t, s)` for a scalar `s`. -/
def scalar_div {ι : Type} (t : Tensor ι) (s : ℚ) : Tensor ι :=
  ⟨t.shape, fun idx => t.val idx / s⟩

/-- The multi-indices that are in range for every axis of shape `sh`. -/
def valid_indices {ι : Type} [DecidableEq ι] [Fintype ι] (sh : ι → ℕ) :
    Finset (ι → Fin 2) :=
  Fintype.piFinset (fun i => Finset.filter (fun v : Fin 2 => (v : ℕ) < sh i) Finset.univ)

/-- Total `np.sum(t)`: the sum of all array elements, i.e. of `val` over the
in-range multi-indices. -/
def total_sum {ι : Type} [DecidableEq ι] [Fintype ι] (t : Tensor ι) : ℚ :=
  Finset.sum (valid_indices t.shape) t.val

/-- A `Network`: `n` binary nodes; node `i` has transition table
`tpm i : (Fin n → Fin 2) → ℚ`, the probability that node `i` is ON at
the next step given the network state (an `n`-axis array of shape
`(2,...,2)` in the source). -/
structure Network (n : ℕ) where
  tpm : Fin n → (Fin n → Fin 2) → ℚ

/-- Constructor `Subsystem(nodes, current_state, past_state, network)`.  `nodes` is
the candidate node set; nodes of the network outside it are the fixed
boundary (`external_nodes = set(network.nodes) - set(nodes)` in the
source, embedded here as the complement predicate `x ∉ nodes`). -/
structure Subsystem (n : ℕ) where
  nodes : Finset (Fin n)
  current_state : Fin n → Fin 2
  past_state : Fin n → Fin 2
  network : Network n

/-- The axis sizes of a repertoire over `purview`: 2 on purview axes,
else 1 (source line `2 if node in purview else 1`). -/
def purview_shape {n : ℕ} (purview : List (Fin n)) : Fin n → ℕ :=
  fun i => if i ∈ purview then 2 else 1

/-- Modelled from the spec: `utils.max_entropy_distribution(purview,
network)` is not part of the given source.  Per §4.3 it is the `n`-axis
tensor of shape `purview_shape` holding the uniform distribution over
all joint purview states (each in-range entry `1 / ∏ shape`, total mass
1). -/
def max_entropy_distribution {n : ℕ} (purview : List (Fin n)) : Tensor (Fin n) :=
  ⟨purview_shape purview,
   fun _ => 1 / Finset.prod Finset.univ (fun i => ((purview_shape purview i : ℚ)))⟩

/-- The result of `cause_repertoire`: either the sentinel `np.array([])`
returned for an empty purview (a 1-axis array of shape `(0,)`, not an
`n`-axis tensor), or an `n`-axis distribution tensor. -/
inductive CauseResult (n : ℕ) where
  | emptyArr : CauseResult n
  | dist (t : Tensor (Fin n)) : CauseResult n
deriving DecidableEq

/-- Source lines 132-133: `node.tpm if self.current_state[node.index] == 1
else 1 - node.tpm`, as a full `(2,...,2)`-shaped tensor. -/
def conditioned_tpm_init {n : ℕ} (S : Subsystem n) (m : Fin n) : Tensor (Fin n) :=
  ⟨fun _ => 2,
   if S.current_state m = 1 then S.network.tpm m
   else fun w => 1 - S.network.tpm m w⟩

/-- Source lines 139-159: the inner loop of `cause_repertoire` over
`set(self.network.nodes) - set(past_nodes)` (here folded in the
canonical node order), marginalizing out in-subsystem nodes and
conditioning out-of-subsystem nodes on their past state. -/
def cause_node_table {n : ℕ} (S : Subsystem n) (purview : List (Fin n)) (m : Fin n) :
    Tensor (Fin n) :=
  ((List.finRange n).filter (fun x => x ∉ purview)).foldl
    (fun t x =>
      if x ∈ S.nodes then marginalize_out x t
      else condition_at x (S.past_state x) t)
    (conditioned_tpm_init S m)

/-- Source lines 117-164: `accumulated_cjd`, the product over mechanism
nodes of their conditioned tables, starting from
`np.ones(2 if node in purview else 1 ...)`. -/
def accumulated_cjd {n : ℕ} (S : Subsystem n) (mechanism purview : List (Fin n)) :
    Tensor (Fin n) :=
  mechanism.foldl (fun acc node => tmul acc (cause_node_table S purview node))
    (ones (purview_shape purview))

/-- Source lines 166-172: divide by `np.sum(accumulated_cjd)` unless that
sum is zero. -/
def normalize_cjd {n : ℕ} (t : Tensor (Fin n)) : Tensor (Fin n) :=
  if total_sum t ≠ 0 then scalar_div t (total_sum t) else t

/-- The method `Subsystem.cause_repertoire(mechanism, purview)` (source lines
84-180). -/
def cause_repertoire {n : ℕ} (S : Subsystem n) (mechanism purview : List (Fin n)) :
    CauseResult n :=
  if purview.length = 0 then .emptyArr
  else if mechanism.length = 0 then .dist (max_entropy_distribution purview)
  else .dist (normalize_cjd (accumulated_cjd S mechanism purview))

/-- The method `Subsystem.uc_cause_repertoire(purview)` (source lines 70-75): the
cause repertoire with an empty mechanism. -/
def uc_cause_repertoire {n : ℕ} (S : Subsystem n) (purview : List (Fin n)) :
    CauseResult n :=
  cause_repertoire S [] purview

/-- Source lines 230-241 of `effect_repertoire`: node `p`'s transition
tensor over the `2n`-axis layout.  The current-state block (`Sum.inl`)
has size 2 everywhere; the future block (`Sum.inr`) is singleton except
at `p`, whose 0-slice holds `1 - node.tpm` and 1-slice holds
`node.tpm`. -/
def effect_node_tpm {n : ℕ} (net : Network n) (p : Fin n) : Tensor (Fin n ⊕ Fin n) :=
  ⟨Sum.elim (fun _ => 2) (fun i => if i = p then 2 else 1),
   fun idx =>
     if idx (Sum.inr p) = 0 then 1 - net.tpm p (fun i => idx (Sum.inl i))
     else net.tpm p (fun i => idx (Sum.inl i))⟩

/-- Source lines 248-251: marginalize out of node `p`'s transition
tensor every current-state axis of a subsystem node that is not in the
mechanism (`set(self.nodes) - set(past_nodes)`, folded in canonical
order). -/
def effect_node_table {n : ℕ} (S : Subsystem n) (mechanism : List (Fin n)) (p : Fin n) :
    Tensor (Fin n ⊕ Fin n) :=
  ((List.finRange n).filter (fun q => q ∈ S.nodes ∧ q ∉ mechanism)).foldl
    (fun t q => marginalize_out (Sum.inl q) t)
    (effect_node_tpm S.network p)

/-- Source lines 204-256: the accumulated joint over the purview,
starting from `np.ones([1]*n + [2 if node in purview else 1 ...])`. -/
def effect_accumulated {n : ℕ} (S : Subsystem n) (mechanism purview : List (Fin n)) :
    Tensor (Fin n ⊕ Fin n) :=
  purview.foldl (fun acc p => tmul acc (effect_node_table S mechanism p))
    (ones (Sum.elim (fun _ => 1) (fun i => if i ∈ purview then 2 else 1)))

/-- The nodes conditioned at source lines 263-267:
`set(past_nodes) | set(self.external_nodes)`, in canonical order. -/
def effect_cond_nodes {n : ℕ} (S : Subsystem n) (mechanism : List (Fin n)) :
    List (Fin n) :=
  (List.finRange n).filter (fun x => x ∈ mechanism ∨ x ∉ S.nodes)

/-- Source lines 279-280: reshape to the second half of the shape.
After conditioning, every current-state axis is singleton, so this just
drops the (broadcast-constant) first block. -/
def reshape_second_half {n : ℕ} (t : Tensor (Fin n ⊕ Fin n)) : Tensor (Fin n) :=
  ⟨fun i => t.shape (Sum.inr i), fun idx => t.val (Sum.elim (fun _ => 0) idx)⟩

/-- The method `Subsystem.effect_repertoire(mechanism, purview)` (source lines
182-288).  The conditioning step indexes each current-state axis of a
mechanism or external node at `current_state[node]`, which numpy rejects
with an `IndexError` when that axis is singleton and the state is 1. -/
def effect_repertoire {n : ℕ} (S : Subsystem n) (mechanism purview : List (Fin n)) :
    Except String (Tensor (Fin n)) :=
  do
    let conditioned ←
      (effect_cond_nodes S mechanism).foldlM
        (fun t x => condition_checked (Sum.inl x) (S.current_state x) t)
        (effect_accumulated S mechanism purview)
    return reshape_second_half conditioned

/-- The method `Subsystem.unconstrained_effect_repertoire(purview)` (source lines
77-82). -/
def unconstrained_effect_repertoire {n : ℕ} (S : Subsystem n) (purview : List (Fin n)) :
    Except String (Tensor (Fin n)) :=
  effect_repertoire S [] purview

/-- The elementwise numpy comparison `a == b` of two length-`n` state
vectors: a length-`n` boolean array. -/
def state_cmp {n : ℕ} (a b : Fin n → Fin 2) : List Bool :=
  (List.finRange n).map (fun i => decide (a i = b i))

/-- Truthiness `bool()` of a numpy boolean array, as invoked by the `and` chain of
`__eq__`: a single element gives its value; two or more elements raise
`ValueError: The truth value of an array with more than one element is
ambiguous`; the empty array is falsy (numpy 1.x behaviour, with a
deprecation warning). -/
def np_bool_array_truth (bs : List Bool) : Except String Bool :=
  match bs with
  | [] => .ok false
  | [b] => .ok b
  | _ :: _ :: _ => .error "ValueError"

/-- The method `Subsystem.__eq__` (source lines 54-61), modelling the truthiness of
the Python `and` chain
`set(self.nodes) == set(other.nodes) and self.past_state ==
other.past_state and self.current_state == other.past_state and
self.network == other.network`.
Note the source compares `self.current_state` against the *other*
subsystem's `past_state`.  `Network` has no `__eq__` in the given
source, so the final identity comparison `self.network == other.network`
is passed in as the boolean `netEq`. -/
def Subsystem.eq {n : ℕ} (s o : Subsystem n) (netEq : Bool) : Except String Bool :=
  if s.nodes = o.nodes then
    do
      let tb ← np_bool_array_truth (state_cmp s.past_state o.past_state)
      if tb then
        do
          let tc ← np_bool_array_truth (state_cmp s.current_state o.past_state)
          if tc then return netEq else return false
      else return false
  else return false

/-!
## Machinery: closed forms for the conditioning/marginalization loops

Each inner loop of the two repertoire computations applies, to distinct
axes of a tensor, either a marginalization or a conditioning.  We
describe such a loop as a list of axis operations and compute its value
function in closed form: an average, over all assignments `u` to the
marginalized axes, of the original values at overridden multi-indices.
-/

/-- One operation of an inner loop: marginalize the axis, or condition
it on the fixed value `v`. -/
inductive AxOp where
  | marg : AxOp
  | cond (v : Fin 2) : AxOp

/-- Apply one axis operation. -/
def ax_step {ι : Type} [DecidableEq ι] (t : Tensor ι) (p : ι × AxOp) : Tensor ι :=
  match p.2 with
  | AxOp.marg => marginalize_out p.1 t
  | AxOp.cond v => condition_at p.1 v t

/-- Apply a list of axis operations in order. -/
def apply_ops {ι : Type} [DecidableEq ι] (ops : List (ι × AxOp)) (t : Tensor ι) : Tensor ι :=
  ops.foldl ax_step t

/-- The multi-index override described by a list of axis operations:
marginalized axes read the assignment `u`, conditioned axes read their
fixed value, untouched axes read `idx`. -/
def ovr {ι : Type} [DecidableEq ι] :
    List (ι × AxOp) → (ι → Fin 2) → (ι → Fin 2) → ι → Fin 2
  | [], idx, _ => idx
  | (a, op) :: rest, idx, u =>
    fun x =>
      if x = a then (match op with | AxOp.marg => u a | AxOp.cond v => v)
      else ovr rest idx u x

/-- Reassemble a binary assignment from its value at `a` and its values
off `a`. -/
def recon {ι : Type} [DecidableEq ι] (a : ι) (b : Fin 2)
    (g : {j // j ≠ a} → Fin 2) : ι → Fin 2 :=
  fun j => if h : j = a then b else g ⟨j, h⟩

/-!
## The cause repertoire: closed form (claim C1)
-/

/-- The operation applied to a non-purview axis in `cause_repertoire`'s
inner loop: in-subsystem nodes are marginalized out, nodes outside the
subsystem are conditioned on their past state. -/
def cause_op {n : ℕ} (S : Subsystem n) : Fin n → AxOp :=
  fun x => if x ∈ S.nodes then AxOp.marg else AxOp.cond (S.past_state x)

/-- Spec-side definition, following the words of claim C1 / spec §4.1:
the multi-index at which node `m`'s conditioned table is read, given the
purview index `idx` and an assignment `u` to the marginalized
(in-subsystem, non-purview) nodes: purview nodes read `idx`, other
in-subsystem nodes read `u`, nodes outside the subsystem read the fixed
`past_state`. -/
def spec_collapse {n : ℕ} (S : Subsystem n) (purview : List (Fin n))
    (idx u : Fin n → Fin 2) : Fin n → Fin 2 :=
  fun x =>
    if x ∈ purview then idx x
    else if x ∈ S.nodes then u x
    else S.past_state x

/-- Spec-side definition, following the words of claim C1 / spec §4.1:
mechanism node `m`'s table — `m.tpm` if `current_state[m] == 1`, else
`1 - m.tpm` — with every non-purview in-subsystem axis marginalized out
(uniform average) and every non-purview outside axis collapsed to
`past_state`.  The average over the marginalized nodes is written as a
sum over assignments `u` to all `n` nodes divided by `2 ^ n`: the
summand ignores `u` outside the marginalized nodes, so the overcount
cancels and this is exactly the uniform average over the marginalized
nodes. -/
def spec_node_table {n : ℕ} (S : Subsystem n) (purview : List (Fin n)) (m : Fin n) :
    Tensor (Fin n) :=
  ⟨purview_shape purview,
   fun idx =>
     (∑ u : Fin n → Fin 2,
       (if S.current_state m = 1 then S.network.tpm m (spec_collapse S purview idx u)
        else 1 - S.network.tpm m (spec_collapse S purview idx u))) / 2 ^ n⟩

/-- Spec-side definition, following the words of claim C1: the
elementwise product, over the mechanism's nodes, of the per-node
conditioned/marginalized tables. -/
def cause_spec_product {n : ℕ} (S : Subsystem n) (mechanism purview : List (Fin n)) :
    Tensor (Fin n) :=
  ⟨purview_shape purview,
   fun idx => (mechanism.map (fun m => (spec_node_table S purview m).val idx)).prod⟩

/-!
## Concrete example networks and subsystems

Used by the closed witness and counterexample theorems below.
-/

/-- Two-node network: node 0 is a fair coin; node 1 copies node 0's
value (the deterministic-copy scenario of spec §8). -/
def copy_network : Network 2 :=
  ⟨fun m w => if m = 0 then 1/2 else (if w 0 = 1 then 1 else 0)⟩

/-- Subsystem of both nodes of `copy_network`, current state `(1,1)`,
past state `(0,0)`. -/
def copy_subsystem : Subsystem 2 :=
  ⟨Finset.univ, fun _ => 1, fun _ => 0, copy_network⟩

/-- One-node network whose node is a fair coin. -/
def coin_network : Network 1 := ⟨fun _ _ => 1/2⟩

/-- The coin node, currently ON, past OFF. -/
def coin_on : Subsystem 1 := ⟨{0}, fun _ => 1, fun _ => 0, coin_network⟩

/-- The coin node, currently OFF, past OFF. -/
def coin_off : Subsystem 1 := ⟨{0}, fun _ => 0, fun _ => 0, coin_network⟩

/-- One-node network whose node is always ON at the next step. -/
def always_on_network : Network 1 := ⟨fun _ _ => 1⟩

/-- The always-ON node observed OFF: its current state has prior
probability zero, so the cause repertoire accumulator is all-zero. -/
def always_on_off_subsystem : Subsystem 1 :=
  ⟨{0}, fun _ => 0, fun _ => 0, always_on_network⟩

/-- One-node subsystem whose current state differs from its past state
(used for the `__eq__` defect). -/
def mismatch_subsystem : Subsystem 1 := ⟨{0}, fun _ => 0, fun _ => 1, coin_network⟩

/-!
## The effect repertoire: success/failure of conditioning and closed form
-/

/-- The first-block axes marginalized in `effect_node_table`: the
current-state axes of subsystem nodes not in the mechanism
(`set(self.nodes) - set(past_nodes)` at source line 248). -/
def effect_marg_axes {n : ℕ} (S : Subsystem n) (mechanism : List (Fin n)) :
    List (Fin n ⊕ Fin n) :=
  (((List.finRange n).filter (fun q => q ∈ S.nodes ∧ q ∉ mechanism)).map Sum.inl)

/-- The multi-index override performed by `effect_node_table`'s
marginalization loop: marginalized axes (current-state axes of
in-subsystem, non-mechanism nodes) read the assignment `u`, all other
axes read `w`. -/
def effect_override {n : ℕ} (S : Subsystem n) (mechanism : List (Fin n))
    (u w : (Fin n ⊕ Fin n) → Fin 2) : (Fin n ⊕ Fin n) → Fin 2 :=
  fun y =>
    match y with
    | Sum.inl q => if q ∈ S.nodes ∧ q ∉ mechanism then u (Sum.inl q) else w (Sum.inl q)
    | Sum.inr i => w (Sum.inr i)

/-- The index substitution performed by a fold of conditionings. -/
def cond_subst {ι α : Type} [DecidableEq ι] (ax : α → ι) (v : α → Fin 2) :
    List α → (ι → Fin 2) → ι → Fin 2
  | [], w => w
  | x :: L, w => Function.update (cond_subst ax v L w) (ax x) (v x)

/-- The conditioned `accumulated_cjd` of `effect_repertoire` (the state
after source line 273), in the success case. -/
def effect_conditioned {n : ℕ} (S : Subsystem n) (mechanism purview : List (Fin n)) :
    Tensor (Fin n ⊕ Fin n) :=
  (effect_cond_nodes S mechanism).foldl
    (fun t x => condition_at (Sum.inl x) (S.current_state x) t)
    (effect_accumulated S mechanism purview)

/-- The full-network multi-index at which the purview factors are read
after conditioning and reshaping: mechanism and external current-state
axes hold `current_state`, marginalized current-state axes hold the
reshape filler 0, future axes hold the repertoire index `idx`. -/
def effect_final_idx {n : ℕ} (S : Subsystem n) (mechanism : List (Fin n))
    (idx : Fin n → Fin 2) : (Fin n ⊕ Fin n) → Fin 2 :=
  Sum.elim
    (fun x => if x ∈ effect_cond_nodes S mechanism then S.current_state x else 0)
    idx

theorem Tensor.ext_iff {ι : Type} {a b : Tensor ι} :
    a = b ↔ a.shape = b.shape ∧ a.val = b.val := by
  cases a; cases b; simp

theorem apply_ops_cons {ι : Type} [DecidableEq ι] (a : ι) (op : AxOp)
    (rest : List (ι × AxOp)) (t : Tensor ι) :
    apply_ops ((a, op) :: rest) t = apply_ops rest (ax_step t (a, op)) := rfl

theorem ax_step_shape {ι : Type} [DecidableEq ι] (t : Tensor ι) (a : ι) (op : AxOp) :
    (ax_step t (a, op)).shape = Function.update t.shape a 1 := by
  cases op <;> rfl

theorem apply_ops_shape {ι : Type} [DecidableEq ι] (ops : List (ι × AxOp)) :
    ∀ t : Tensor ι,
      (apply_ops ops t).shape = fun i => if i ∈ ops.map Prod.fst then 1 else t.shape i := by
  induction ops with
  | nil => intro t; funext i; simp [apply_ops]
  | cons hd rest ih =>
    intro t
    obtain ⟨a, op⟩ := hd
    rw [apply_ops_cons, ih]
    funext i
    by_cases hir : i ∈ rest.map Prod.fst
    · simp [hir]
    · by_cases hia : i = a
      · subst hia
        simp [hir, ax_step_shape]
      · simp [hir, hia, ax_step_shape, Function.update_noteq hia]

theorem ovr_update_u {ι : Type} [DecidableEq ι] {a : ι} :
    ∀ (ops : List (ι × AxOp)), a ∉ ops.map Prod.fst →
      ∀ (idx u : ι → Fin 2) (z : Fin 2),
        ovr ops idx (Function.update u a z) = ovr ops idx u := by
  intro ops
  induction ops with
  | nil => intro _ idx u z; rfl
  | cons hd rest ih =>
    intro h idx u z
    obtain ⟨b, op⟩ := hd
    simp only [List.map_cons, List.mem_cons] at h
    push_neg at h
    funext x
    cases op with
    | marg =>
      by_cases hx : x = b
      · simp [ovr, hx, Function.update_noteq (Ne.symm h.1)]
      · simp only [ovr, if_neg hx]
        exact congrFun (ih h.2 idx u z) x
    | cond v =>
      by_cases hx : x = b
      · simp [ovr, hx]
      · simp only [ovr, if_neg hx]
        exact congrFun (ih h.2 idx u z) x

theorem ovr_cons_marg {ι : Type} [DecidableEq ι] (a : ι) (rest : List (ι × AxOp))
    (idx u : ι → Fin 2) :
    ovr ((a, AxOp.marg) :: rest) idx u = Function.update (ovr rest idx u) a (u a) := by
  funext x
  simp only [ovr, Function.update_apply]

theorem ovr_cons_cond {ι : Type} [DecidableEq ι] (a : ι) (v : Fin 2)
    (rest : List (ι × AxOp)) (idx u : ι → Fin 2) :
    ovr ((a, AxOp.cond v) :: rest) idx u = Function.update (ovr rest idx u) a v := by
  funext x
  simp only [ovr, Function.update_apply]

theorem recon_self {ι : Type} [DecidableEq ι] (a : ι) (b : Fin 2)
    (g : {j // j ≠ a} → Fin 2) : recon a b g a = b := by
  simp [recon]

theorem recon_update {ι : Type} [DecidableEq ι] (a : ι) (b c : Fin 2)
    (g : {j // j ≠ a} → Fin 2) :
    Function.update (recon a b g) a c = recon a c g := by
  funext j
  by_cases h : j = a
  · subst h; simp [recon]
  · simp [recon, h, Function.update_noteq h]

theorem recon_eq_symm {ι : Type} [DecidableEq ι] (a : ι) (b : Fin 2)
    (g : {j // j ≠ a} → Fin 2) :
    (Equiv.piSplitAt a (fun _ => Fin 2)).symm (b, g) = recon a b g := by
  funext j
  rw [Equiv.piSplitAt_symm_apply]
  by_cases h : j = a
  · subst h; simp [recon]
  · simp [recon, h]

theorem sum_split_at {ι : Type} [DecidableEq ι] [Fintype ι] (a : ι)
    (F : (ι → Fin 2) → ℚ) :
    (∑ u : ι → Fin 2, F u)
      = ∑ g : {j // j ≠ a} → Fin 2, (F (recon a 0 g) + F (recon a 1 g)) := by
  rw [← Equiv.sum_comp (Equiv.piSplitAt a (fun _ => Fin 2)).symm F]
  rw [Fintype.sum_prod_type, Fin.sum_univ_two, ← Finset.sum_add_distrib]
  exact Finset.sum_congr rfl (fun g _ => by rw [recon_eq_symm, recon_eq_symm])

/-- Closed form of an inner loop over distinct axes: the result's entry
at `idx` is the average, over all assignments `u`, of the original
entries at the overridden multi-indices.  (Summing over assignments to
all of `ι` rather than just the marginalized axes overcounts each term
by exactly the factor that `2 ^ card ι` exceeds the number of
marginalized axes by, so the division yields the uniform average.) -/
theorem apply_ops_val {ι : Type} [DecidableEq ι] [Fintype ι] :
    ∀ (ops : List (ι × AxOp)), (ops.map Prod.fst).Nodup →
      ∀ (t : Tensor ι) (idx : ι → Fin 2),
        (apply_ops ops t).val idx
          = (∑ u : ι → Fin 2, t.val (ovr ops idx u)) / 2 ^ (Fintype.card ι) := by
  intro ops
  induction ops with
  | nil =>
    intro _ t idx
    show t.val idx = (∑ _u : ι → Fin 2, t.val idx) / 2 ^ (Fintype.card ι)
    rw [Finset.sum_const, nsmul_eq_mul]
    have hcard : (Finset.univ : Finset (ι → Fin 2)).card = 2 ^ (Fintype.card ι) := by
      rw [Finset.card_univ, Fintype.card_fun, Fintype.card_fin]
    rw [hcard]
    push_cast
    field_simp
  | cons hd rest ih =>
    intro hnd t idx
    obtain ⟨a, op⟩ := hd
    simp only [List.map_cons, List.nodup_cons] at hnd
    obtain ⟨ha, hrest⟩ := hnd
    rw [apply_ops_cons, ih hrest]
    cases op with
    | cond v =>
      congr 1
      refine Finset.sum_congr rfl (fun u _ => ?_)
      show t.val (Function.update (ovr rest idx u) a v) = t.val (ovr ((a, AxOp.cond v) :: rest) idx u)
      rw [ovr_cons_cond]
    | marg =>
      congr 1
      have hW : ∀ (g : {j // j ≠ a} → Fin 2) (b : Fin 2),
          ovr rest idx (recon a b g) = ovr rest idx (recon a 0 g) := by
        intro g b
        have h1 : recon a b g = Function.update (recon a 0 g) a b := (recon_update a 0 b g).symm
        rw [h1, ovr_update_u rest ha]
      have hstep : ∀ u : ι → Fin 2,
          (ax_step t (a, AxOp.marg)).val (ovr rest idx u)
            = (t.val (Function.update (ovr rest idx u) a 0)
                + t.val (Function.update (ovr rest idx u) a 1)) / 2 := fun u => rfl
      simp only [hstep]
      rw [sum_split_at a (fun u =>
            (t.val (Function.update (ovr rest idx u) a 0)
              + t.val (Function.update (ovr rest idx u) a 1)) / 2),
          sum_split_at a (fun u => t.val (ovr ((a, AxOp.marg) :: rest) idx u))]
      refine Finset.sum_congr rfl (fun g _ => ?_)
      rw [ovr_cons_marg, ovr_cons_marg, hW g 1, recon_self, recon_self]
      ring

theorem ax_step_marg {ι : Type} [DecidableEq ι] (t : Tensor ι) (a : ι) :
    ax_step t (a, AxOp.marg) = marginalize_out a t := rfl

theorem ax_step_cond {ι : Type} [DecidableEq ι] (t : Tensor ι) (a : ι) (v : Fin 2) :
    ax_step t (a, AxOp.cond v) = condition_at a v t := rfl

theorem map_fst_graph {ι : Type} (L : List ι) (g : ι → AxOp) :
    (L.map (fun a => (a, g a))).map Prod.fst = L := by
  induction L with
  | nil => rfl
  | cons a rest ih => simp [ih]

theorem ovr_map_graph {ι : Type} [DecidableEq ι] (g : ι → AxOp) :
    ∀ (L : List ι) (idx u : ι → Fin 2) (y : ι),
      ovr (L.map (fun a => (a, g a))) idx u y
        = if y ∈ L then (match g y with | AxOp.marg => u y | AxOp.cond v => v)
          else idx y := by
  intro L
  induction L with
  | nil => intro idx u y; simp [ovr]
  | cons a rest ih =>
    intro idx u y
    by_cases hy : y = a
    · subst hy
      simp [ovr]
    · simp only [List.map_cons, ovr, if_neg hy, List.mem_cons]
      rw [ih idx u y]
      simp [hy]

/-- The lemma `apply_ops_val` specialized to a loop given by a list of distinct
axes and an operation per axis. -/
theorem apply_ops_graph_val {ι : Type} [DecidableEq ι] [Fintype ι]
    (L : List ι) (g : ι → AxOp) (hL : L.Nodup) (t : Tensor ι) (idx : ι → Fin 2) :
    (apply_ops (L.map (fun a => (a, g a))) t).val idx
      = (∑ u : ι → Fin 2,
          t.val (fun y =>
            if y ∈ L then (match g y with | AxOp.marg => u y | AxOp.cond v => v)
            else idx y)) / 2 ^ (Fintype.card ι) := by
  rw [apply_ops_val _ (by rw [map_fst_graph]; exact hL)]
  congr 1
  refine Finset.sum_congr rfl (fun u _ => ?_)
  congr 1
  funext y
  exact ovr_map_graph g L idx u y

theorem apply_ops_graph_shape {ι : Type} [DecidableEq ι]
    (L : List ι) (g : ι → AxOp) (t : Tensor ι) :
    (apply_ops (L.map (fun a => (a, g a))) t).shape
      = fun i => if i ∈ L then 1 else t.shape i := by
  rw [apply_ops_shape, map_fst_graph]

theorem foldl_tmul_val {ι α : Type} (f : α → Tensor ι) :
    ∀ (l : List α) (init : Tensor ι) (idx : ι → Fin 2),
      (l.foldl (fun acc x => tmul acc (f x)) init).val idx
        = init.val idx * (l.map (fun x => (f x).val idx)).prod := by
  intro l
  induction l with
  | nil => intro init idx; simp
  | cons a rest ih =>
    intro init idx
    simp only [List.foldl_cons, List.map_cons, List.prod_cons]
    rw [ih]
    simp only [tmul]
    ring

theorem foldl_tmul_shape_apply {ι α : Type} (f : α → Tensor ι) :
    ∀ (l : List α) (init : Tensor ι) (y : ι),
      (l.foldl (fun acc x => tmul acc (f x)) init).shape y
        = l.foldl (fun s x => max s ((f x).shape y)) (init.shape y) := by
  intro l
  induction l with
  | nil => intro init y; rfl
  | cons a rest ih =>
    intro init y
    simp only [List.foldl_cons]
    rw [ih]
    rfl

theorem foldl_max_const {α : Type} (g : α → ℕ) :
    ∀ (l : List α) (a : ℕ), (∀ x ∈ l, g x ≤ a) →
      l.foldl (fun s x => max s (g x)) a = a := by
  intro l
  induction l with
  | nil => intro a _; rfl
  | cons b rest ih =>
    intro a h
    simp only [List.foldl_cons]
    rw [Nat.max_eq_left (h b (List.mem_cons_self b rest))]
    exact ih a (fun x hx => h x (List.mem_cons_of_mem b hx))

theorem foldl_max_eq {α : Type} (g : α → ℕ) (c : ℕ) :
    ∀ (l : List α) (a : ℕ), l ≠ [] → (∀ x ∈ l, g x = c) → a ≤ c →
      l.foldl (fun s x => max s (g x)) a = c := by
  intro l
  cases l with
  | nil => intro a h; exact absurd rfl h
  | cons b rest =>
    intro a _ h hac
    simp only [List.foldl_cons]
    rw [h b (List.mem_cons_self b rest), Nat.max_eq_right hac]
    exact foldl_max_const g rest c
      (fun x hx => Nat.le_of_eq (h x (List.mem_cons_of_mem b hx)))

theorem cause_node_table_eq_graph {n : ℕ} (S : Subsystem n)
    (purview : List (Fin n)) (m : Fin n) :
    cause_node_table S purview m
      = apply_ops
          (((List.finRange n).filter (fun x => x ∉ purview)).map
            (fun x => (x, cause_op S x)))
          (conditioned_tpm_init S m) := by
  unfold cause_node_table apply_ops
  rw [List.foldl_map]
  congr 1
  funext t x
  by_cases hx : x ∈ S.nodes <;> simp [cause_op, hx, ax_step_marg, ax_step_cond]

theorem cause_node_table_spec {n : ℕ} (S : Subsystem n)
    (purview : List (Fin n)) (m : Fin n) :
    cause_node_table S purview m = spec_node_table S purview m := by
  rw [cause_node_table_eq_graph, Tensor.ext_iff]
  have hnd : ((List.finRange n).filter (fun x => x ∉ purview)).Nodup :=
    (List.nodup_finRange n).filter _
  constructor
  · rw [apply_ops_graph_shape]
    funext i
    by_cases hi : i ∈ purview <;>
      simp [spec_node_table, purview_shape, conditioned_tpm_init, hi,
        List.mem_filter, List.mem_finRange]
  · funext idx
    rw [apply_ops_graph_val _ _ hnd, Fintype.card_fin]
    show _ = (∑ u : Fin n → Fin 2,
       (if S.current_state m = 1 then S.network.tpm m (spec_collapse S purview idx u)
        else 1 - S.network.tpm m (spec_collapse S purview idx u))) / 2 ^ n
    congr 1
    refine Finset.sum_congr rfl (fun u _ => ?_)
    have harg :
        (fun y =>
          if y ∈ (List.finRange n).filter (fun x => x ∉ purview) then
            (match cause_op S y with | AxOp.marg => u y | AxOp.cond v => v)
          else idx y)
        = spec_collapse S purview idx u := by
      funext y
      by_cases hy : y ∈ purview
      · simp [spec_collapse, hy, List.mem_filter, List.mem_finRange]
      · by_cases hs : y ∈ S.nodes <;>
          simp [spec_collapse, hy, hs, cause_op, List.mem_filter, List.mem_finRange]
    rw [harg]
    by_cases hc : S.current_state m = 1 <;> simp [conditioned_tpm_init, hc]

theorem accumulated_cjd_eq_spec {n : ℕ} (S : Subsystem n)
    (mechanism purview : List (Fin n)) :
    accumulated_cjd S mechanism purview = cause_spec_product S mechanism purview := by
  rw [Tensor.ext_iff]
  constructor
  · funext y
    rw [accumulated_cjd, foldl_tmul_shape_apply]
    show List.foldl _ ((ones (purview_shape purview)).shape y) _ = purview_shape purview y
    exact foldl_max_const _ mechanism (purview_shape purview y)
      (fun m _ => by rw [cause_node_table_spec]; exact Nat.le_refl _)
  · funext idx
    rw [accumulated_cjd, foldl_tmul_val]
    show 1 * _ = _
    rw [one_mul]
    show (mechanism.map (fun m => (cause_node_table S purview m).val idx)).prod = _
    simp only [cause_node_table_spec]
    rfl

/-!
## Claims C1, C4, C6, C8 about `cause_repertoire`
-/

/-- C1: for every non-empty mechanism and non-empty purview,
`cause_repertoire` returns the normalization of the elementwise product
of the per-mechanism-node tables, where node `m` contributes `m.tpm` if
`current_state[m] == 1` and `1 - m.tpm` otherwise, with every
non-purview axis of an in-subsystem node marginalized out (uniform
average) and every non-purview axis of an outside node collapsed to the
slice at `past_state` (`cause_spec_product` is the spec-side definition
of that product). -/
theorem cause_repertoire_matches_spec {n : ℕ} (S : Subsystem n)
    (mechanism purview : List (Fin n)) (hm : mechanism ≠ []) (hp : purview ≠ []) :
    cause_repertoire S mechanism purview
      = CauseResult.dist (normalize_cjd (cause_spec_product S mechanism purview)) := by
  have h1 : ¬ purview.length = 0 := by
    rw [List.length_eq_zero]; exact hp
  have h2 : ¬ mechanism.length = 0 := by
    rw [List.length_eq_zero]; exact hm
  rw [cause_repertoire, if_neg h1, if_neg h2, accumulated_cjd_eq_spec]

theorem cause_repertoire_matches_spec_witness :
    ((([1] : List (Fin 2)) ≠ []) ∧ (([0] : List (Fin 2)) ≠ [])) ∧
      cause_repertoire copy_subsystem [1] [0]
        = CauseResult.dist (normalize_cjd (cause_spec_product copy_subsystem [1] [0])) :=
  ⟨⟨by decide, by decide⟩,
   cause_repertoire_matches_spec copy_subsystem [1] [0] (by decide) (by decide)⟩

/-- C8: for every mechanism, `cause_repertoire` with an empty purview
returns the `np.array([])` sentinel immediately, without raising. -/
theorem cause_repertoire_empty_purview_sentinel {n : ℕ} (S : Subsystem n)
    (mechanism : List (Fin n)) :
    cause_repertoire S mechanism [] = CauseResult.emptyArr := rfl

/-- C4: for every non-empty purview, `cause_repertoire` with an empty
mechanism returns exactly `max_entropy_distribution(purview)`, and
`uc_cause_repertoire` is that same call with an empty mechanism. -/
theorem cause_repertoire_empty_mechanism {n : ℕ} (S : Subsystem n)
    (purview : List (Fin n)) (hp : purview ≠ []) :
    cause_repertoire S [] purview = CauseResult.dist (max_entropy_distribution purview)
    ∧ uc_cause_repertoire S purview = cause_repertoire S [] purview := by
  refine ⟨?_, rfl⟩
  simp [cause_repertoire, List.length_eq_zero, hp]

theorem cause_repertoire_empty_mechanism_witness :
    (([0] : List (Fin 1)) ≠ []) ∧
      (cause_repertoire coin_on [] [0] = CauseResult.dist (max_entropy_distribution [0])
       ∧ uc_cause_repertoire coin_on [0] = cause_repertoire coin_on [] [0]) :=
  ⟨by decide, cause_repertoire_empty_mechanism coin_on [0] (by decide)⟩

theorem tmul_right_comm {ι : Type} (b x y : Tensor ι) :
    tmul (tmul b x) y = tmul (tmul b y) x := by
  rw [Tensor.ext_iff]
  constructor
  · funext i
    show max (max (b.shape i) (x.shape i)) (y.shape i)
        = max (max (b.shape i) (y.shape i)) (x.shape i)
    rw [max_assoc, max_comm (x.shape i) (y.shape i), ← max_assoc]
  · funext idx
    show b.val idx * x.val idx * y.val idx = b.val idx * y.val idx * x.val idx
    ring

/-- C6: for every non-empty mechanism and non-empty purview, the result
of `cause_repertoire` does not depend on the order in which the
mechanism's nodes are folded over: permuted mechanisms give equal
results (the accumulation is a commutative elementwise product). -/
theorem cause_repertoire_mechanism_perm {n : ℕ} (S : Subsystem n)
    (mechanism1 mechanism2 purview : List (Fin n))
    (hperm : mechanism1.Perm mechanism2)
    (_hm : mechanism1 ≠ []) (_hp : purview ≠ []) :
    cause_repertoire S mechanism1 purview = cause_repertoire S mechanism2 purview := by
  have hacc : accumulated_cjd S mechanism1 purview = accumulated_cjd S mechanism2 purview := by
    unfold accumulated_cjd
    haveI : RightCommutative
        (fun (acc : Tensor (Fin n)) (m : Fin n) => tmul acc (cause_node_table S purview m)) :=
      ⟨fun b a1 a2 => tmul_right_comm b _ _⟩
    exact hperm.foldl_eq _
  simp only [cause_repertoire, hperm.length_eq, hacc]

theorem cause_repertoire_mechanism_perm_witness :
    ((([0, 1] : List (Fin 2)).Perm [1, 0]
        ∧ ([0, 1] : List (Fin 2)) ≠ [] ∧ ([0] : List (Fin 2)) ≠ [])) ∧
      cause_repertoire copy_subsystem [0, 1] [0]
        = cause_repertoire copy_subsystem [1, 0] [0] :=
  ⟨⟨by decide, by decide, by decide⟩,
   cause_repertoire_mechanism_perm copy_subsystem [0, 1] [1, 0] [0]
     (by decide) (by decide) (by decide)⟩

/-!
## Claim C3: the zero-sum guard of the cause normalization
-/

theorem spec_node_table_val_nonneg {n : ℕ} (S : Subsystem n)
    (purview : List (Fin n)) (m : Fin n)
    (hwf : ∀ (k : Fin n) (w : Fin n → Fin 2),
      0 ≤ S.network.tpm k w ∧ S.network.tpm k w ≤ 1)
    (idx : Fin n → Fin 2) :
    0 ≤ (spec_node_table S purview m).val idx := by
  show 0 ≤ (∑ u : Fin n → Fin 2, _) / 2 ^ n
  apply div_nonneg _ (by positivity)
  apply Finset.sum_nonneg
  intro u _
  by_cases hc : S.current_state m = 1
  · simp only [if_pos hc]
    exact (hwf m _).1
  · simp only [if_neg hc]
    have := (hwf m (spec_collapse S purview idx u)).2
    linarith

theorem cause_spec_product_val_nonneg {n : ℕ} (S : Subsystem n)
    (mechanism purview : List (Fin n))
    (hwf : ∀ (k : Fin n) (w : Fin n → Fin 2),
      0 ≤ S.network.tpm k w ∧ S.network.tpm k w ≤ 1)
    (idx : Fin n → Fin 2) :
    0 ≤ (cause_spec_product S mechanism purview).val idx := by
  apply List.prod_nonneg
  intro a ha
  obtain ⟨m, _, rfl⟩ := List.mem_map.1 ha
  exact spec_node_table_val_nonneg S purview m hwf idx

/-- The entries of the spec product only read the purview coordinates of
the multi-index (singleton axes carry the broadcast value). -/
theorem cause_spec_product_val_proj {n : ℕ} (S : Subsystem n)
    (mechanism purview : List (Fin n)) (idx : Fin n → Fin 2) :
    (cause_spec_product S mechanism purview).val idx
      = (cause_spec_product S mechanism purview).val
          (fun x => if x ∈ purview then idx x else 0) := by
  show (mechanism.map _).prod = (mechanism.map _).prod
  congr 1
  apply List.map_congr_left
  intro m _
  show (spec_node_table S purview m).val idx
      = (spec_node_table S purview m).val (fun x => if x ∈ purview then idx x else 0)
  show (∑ u : Fin n → Fin 2, _) / 2 ^ n = (∑ u : Fin n → Fin 2, _) / 2 ^ n
  congr 1
  refine Finset.sum_congr rfl (fun u _ => ?_)
  have hcoll : spec_collapse S purview idx u
      = spec_collapse S purview (fun x => if x ∈ purview then idx x else 0) u := by
    funext x
    by_cases hx : x ∈ purview <;> simp [spec_collapse, hx]
  rw [hcoll]

theorem proj_mem_valid {n : ℕ} (purview : List (Fin n)) (idx : Fin n → Fin 2) :
    (fun x => if x ∈ purview then idx x else 0) ∈ valid_indices (purview_shape purview) := by
  rw [valid_indices, Fintype.mem_piFinset]
  intro i
  rw [Finset.mem_filter]
  refine ⟨Finset.mem_univ _, ?_⟩
  by_cases hi : i ∈ purview <;> simp [purview_shape, hi, Fin.is_lt]

/-- C3: for a non-empty mechanism and purview (and well-formed
probability tables, per the data model of §6), if the accumulated
product sums to exactly zero then it is all-zero and is returned
unchanged, with no division; otherwise the product is divided by its
total sum and the returned tensor sums to 1. -/
theorem cause_repertoire_zero_guard {n : ℕ} (S : Subsystem n)
    (mechanism purview : List (Fin n)) (hm : mechanism ≠ []) (hp : purview ≠ [])
    (hwf : ∀ (k : Fin n) (w : Fin n → Fin 2),
      0 ≤ S.network.tpm k w ∧ S.network.tpm k w ≤ 1) :
    (total_sum (accumulated_cjd S mechanism purview) = 0 →
      cause_repertoire S mechanism purview
          = CauseResult.dist (accumulated_cjd S mechanism purview)
        ∧ ∀ idx, (accumulated_cjd S mechanism purview).val idx = 0)
    ∧ (total_sum (accumulated_cjd S mechanism purview) ≠ 0 →
      ∃ t, cause_repertoire S mechanism purview = CauseResult.dist t
        ∧ total_sum t = 1) := by
  have h1 : ¬ purview.length = 0 := by rw [List.length_eq_zero]; exact hp
  have h2 : ¬ mechanism.length = 0 := by rw [List.length_eq_zero]; exact hm
  constructor
  · intro h0
    constructor
    · rw [cause_repertoire, if_neg h1, if_neg h2, normalize_cjd,
        if_neg (by simp [h0])]
    · intro idx
      rw [accumulated_cjd_eq_spec] at h0 ⊢
      have hzero : ∀ w ∈ valid_indices (purview_shape purview),
          (cause_spec_product S mechanism purview).val w = 0 := by
        have hnn : ∀ w ∈ valid_indices (purview_shape purview),
            0 ≤ (cause_spec_product S mechanism purview).val w :=
          fun w _ => cause_spec_product_val_nonneg S mechanism purview hwf w
        exact (Finset.sum_eq_zero_iff_of_nonneg hnn).1 h0
      rw [cause_spec_product_val_proj]
      exact hzero _ (proj_mem_valid purview idx)
  · intro hne
    refine ⟨scalar_div (accumulated_cjd S mechanism purview)
        (total_sum (accumulated_cjd S mechanism purview)), ?_, ?_⟩
    · rw [cause_repertoire, if_neg h1, if_neg h2, normalize_cjd, if_pos hne]
    · show (∑ w ∈ valid_indices ((accumulated_cjd S mechanism purview).shape),
          (accumulated_cjd S mechanism purview).val w
            / total_sum (accumulated_cjd S mechanism purview)) = 1
      rw [← Finset.sum_div]
      exact div_self hne

theorem sum_fun_fin_one {M : Type} [AddCommMonoid M] (F : (Fin 1 → Fin 2) → M) :
    Finset.sum Finset.univ F = F (fun _ => 0) + F (fun _ => 1) := by
  rw [← Equiv.sum_comp (Equiv.funUnique (Fin 1) (Fin 2)).symm F, Fin.sum_univ_two]
  rfl

theorem valid_indices_univ {ι : Type} [DecidableEq ι] [Fintype ι] (sh : ι → ℕ)
    (h : ∀ i, sh i = 2) : valid_indices sh = Finset.univ := by
  apply Finset.eq_univ_iff_forall.2
  intro idx
  rw [valid_indices, Fintype.mem_piFinset]
  intro i
  rw [Finset.mem_filter]
  exact ⟨Finset.mem_univ _, by rw [h i]; exact (idx i).is_lt⟩

theorem purview_shape_singleton_all_two (i : Fin 1) :
    purview_shape [(0 : Fin 1)] i = 2 := by
  have : i = 0 := Subsingleton.elim i 0
  simp [purview_shape, this]

theorem always_on_acc_sum_zero :
    total_sum (accumulated_cjd always_on_off_subsystem [0] [0]) = 0 := by
  rw [accumulated_cjd_eq_spec]
  show Finset.sum (valid_indices (purview_shape [0]))
      (cause_spec_product always_on_off_subsystem [0] [0]).val = 0
  rw [valid_indices_univ _ purview_shape_singleton_all_two, sum_fun_fin_one]
  simp only [cause_spec_product, spec_node_table, List.map_cons, List.map_nil,
    List.prod_cons, List.prod_nil, sum_fun_fin_one]
  norm_num [always_on_off_subsystem, always_on_network]

theorem coin_on_acc_sum_one :
    total_sum (accumulated_cjd coin_on [0] [0]) = 1 := by
  rw [accumulated_cjd_eq_spec]
  show Finset.sum (valid_indices (purview_shape [0]))
      (cause_spec_product coin_on [0] [0]).val = 1
  rw [valid_indices_univ _ purview_shape_singleton_all_two, sum_fun_fin_one]
  simp only [cause_spec_product, spec_node_table, List.map_cons, List.map_nil,
    List.prod_cons, List.prod_nil, sum_fun_fin_one]
  norm_num [coin_on, coin_network]

theorem cause_repertoire_zero_guard_witness :
    (cause_repertoire always_on_off_subsystem [0] [0]
        = CauseResult.dist (accumulated_cjd always_on_off_subsystem [0] [0]))
    ∧ ∃ t, cause_repertoire coin_on [0] [0] = CauseResult.dist t
        ∧ total_sum t = 1 :=
  ⟨((cause_repertoire_zero_guard always_on_off_subsystem [0] [0]
      (by decide) (by decide)
      (fun k w => by norm_num [always_on_off_subsystem, always_on_network])).1
      always_on_acc_sum_zero).1,
   (cause_repertoire_zero_guard coin_on [0] [0]
      (by decide) (by decide)
      (fun k w => by norm_num [coin_on, coin_network])).2
      (by rw [coin_on_acc_sum_one]; norm_num)⟩

theorem effect_marg_axes_nodup {n : ℕ} (S : Subsystem n) (mechanism : List (Fin n)) :
    (effect_marg_axes S mechanism).Nodup :=
  ((List.nodup_finRange n).filter _).map Sum.inl_injective

theorem inr_not_mem_marg_axes {n : ℕ} (S : Subsystem n) (mechanism : List (Fin n))
    (i : Fin n) : Sum.inr i ∉ effect_marg_axes S mechanism := by
  simp [effect_marg_axes]

theorem effect_node_table_eq_graph {n : ℕ} (S : Subsystem n)
    (mechanism : List (Fin n)) (p : Fin n) :
    effect_node_table S mechanism p
      = apply_ops
          ((effect_marg_axes S mechanism).map (fun a => (a, (fun _ => AxOp.marg) a)))
          (effect_node_tpm S.network p) := by
  unfold effect_node_table apply_ops effect_marg_axes
  rw [List.map_map, List.foldl_map]
  rfl

theorem effect_node_table_val_char {n : ℕ} (S : Subsystem n)
    (mechanism : List (Fin n)) (p : Fin n) (w : (Fin n ⊕ Fin n) → Fin 2) :
    (effect_node_table S mechanism p).val w
      = (∑ u : (Fin n ⊕ Fin n) → Fin 2,
          (effect_node_tpm S.network p).val (effect_override S mechanism u w))
        / 2 ^ (Fintype.card (Fin n ⊕ Fin n)) := by
  rw [effect_node_table_eq_graph,
    apply_ops_graph_val _ _ (effect_marg_axes_nodup S mechanism)]
  congr 1
  refine Finset.sum_congr rfl (fun u _ => ?_)
  congr 1
  funext y
  cases y with
  | inl q =>
    by_cases hq : q ∈ S.nodes ∧ q ∉ mechanism
    · have hmem : Sum.inl q ∈ effect_marg_axes S mechanism := by
        simp [effect_marg_axes, List.mem_filter, List.mem_finRange, hq]
      rw [if_pos hmem]
      show _ = if q ∈ S.nodes ∧ q ∉ mechanism then u (Sum.inl q) else w (Sum.inl q)
      rw [if_pos hq]
    · have hmem : Sum.inl q ∉ effect_marg_axes S mechanism := by
        simp [effect_marg_axes, List.mem_filter, List.mem_finRange, hq]
      rw [if_neg hmem]
      show _ = if q ∈ S.nodes ∧ q ∉ mechanism then u (Sum.inl q) else w (Sum.inl q)
      rw [if_neg hq]
  | inr i =>
    rw [if_neg (inr_not_mem_marg_axes S mechanism i)]
    rfl

theorem effect_override_inr {n : ℕ} (S : Subsystem n) (mechanism : List (Fin n))
    (u w : (Fin n ⊕ Fin n) → Fin 2) (i : Fin n) :
    effect_override S mechanism u w (Sum.inr i) = w (Sum.inr i) := rfl

theorem effect_override_update_inr {n : ℕ} (S : Subsystem n)
    (mechanism : List (Fin n)) (u w : (Fin n ⊕ Fin n) → Fin 2) (p : Fin n) (b : Fin 2) :
    effect_override S mechanism u (Function.update w (Sum.inr p) b)
      = Function.update (effect_override S mechanism u w) (Sum.inr p) b := by
  funext y
  cases y with
  | inl q =>
    have hne : (Sum.inl q : Fin n ⊕ Fin n) ≠ Sum.inr p := by simp
    show (if q ∈ S.nodes ∧ q ∉ mechanism then u (Sum.inl q)
        else Function.update w (Sum.inr p) b (Sum.inl q))
      = Function.update (effect_override S mechanism u w) (Sum.inr p) b (Sum.inl q)
    rw [Function.update_noteq hne b w,
      Function.update_noteq hne b (effect_override S mechanism u w)]
    rfl
  | inr i =>
    show Function.update w (Sum.inr p) b (Sum.inr i)
        = Function.update (effect_override S mechanism u w) (Sum.inr p) b (Sum.inr i)
    by_cases hip : i = p
    · subst hip
      rw [Function.update_same, Function.update_same]
    · have hne : (Sum.inr i : Fin n ⊕ Fin n) ≠ Sum.inr p := by simp [hip]
      rw [Function.update_noteq hne b w,
        Function.update_noteq hne b (effect_override S mechanism u w)]
      rfl

theorem effect_node_table_val_congr {n : ℕ} (S : Subsystem n)
    (mechanism : List (Fin n)) (p : Fin n) (w w2 : (Fin n ⊕ Fin n) → Fin 2)
    (hl : ∀ i, w (Sum.inl i) = w2 (Sum.inl i)) (hr : w (Sum.inr p) = w2 (Sum.inr p)) :
    (effect_node_table S mechanism p).val w = (effect_node_table S mechanism p).val w2 := by
  rw [effect_node_table_val_char, effect_node_table_val_char]
  congr 1
  refine Finset.sum_congr rfl (fun u _ => ?_)
  have hinl : (fun i => effect_override S mechanism u w (Sum.inl i))
      = (fun i => effect_override S mechanism u w2 (Sum.inl i)) := by
    funext q
    show (if q ∈ S.nodes ∧ q ∉ mechanism then u (Sum.inl q) else w (Sum.inl q))
        = (if q ∈ S.nodes ∧ q ∉ mechanism then u (Sum.inl q) else w2 (Sum.inl q))
    by_cases hq : q ∈ S.nodes ∧ q ∉ mechanism
    · rw [if_pos hq, if_pos hq]
    · rw [if_neg hq, if_neg hq, hl q]
  have hrp : effect_override S mechanism u w (Sum.inr p)
      = effect_override S mechanism u w2 (Sum.inr p) := by
    rw [effect_override_inr, effect_override_inr, hr]
  simp only [effect_node_tpm]
  rw [hrp, hinl]

theorem effect_node_table_slices {n : ℕ} (S : Subsystem n)
    (mechanism : List (Fin n)) (p : Fin n) (w : (Fin n ⊕ Fin n) → Fin 2) :
    (effect_node_table S mechanism p).val (Function.update w (Sum.inr p) 0)
      + (effect_node_table S mechanism p).val (Function.update w (Sum.inr p) 1) = 1 := by
  rw [effect_node_table_val_char, effect_node_table_val_char, div_add_div_same,
    ← Finset.sum_add_distrib]
  have hterm : ∀ u : (Fin n ⊕ Fin n) → Fin 2,
      (effect_node_tpm S.network p).val
          (effect_override S mechanism u (Function.update w (Sum.inr p) 0))
        + (effect_node_tpm S.network p).val
          (effect_override S mechanism u (Function.update w (Sum.inr p) 1)) = 1 := by
    intro u
    rw [effect_override_update_inr, effect_override_update_inr]
    simp only [effect_node_tpm]
    rw [Function.update_same, Function.update_same, if_pos rfl,
      if_neg (by decide : ¬ ((1 : Fin 2) = 0))]
    have harg : ∀ b : Fin 2,
        (fun i => Function.update (effect_override S mechanism u w) (Sum.inr p) b
          (Sum.inl i))
          = fun i => effect_override S mechanism u w (Sum.inl i) := by
      intro b
      funext i
      have hne : (Sum.inl i : Fin n ⊕ Fin n) ≠ Sum.inr p := by simp
      rw [Function.update_noteq hne b (effect_override S mechanism u w)]
    rw [harg 0, harg 1]
    ring
  calc (∑ u : (Fin n ⊕ Fin n) → Fin 2, _) / 2 ^ (Fintype.card (Fin n ⊕ Fin n))
      = (∑ _u : (Fin n ⊕ Fin n) → Fin 2, (1:ℚ)) / 2 ^ (Fintype.card (Fin n ⊕ Fin n)) := by
        congr 1
        exact Finset.sum_congr rfl (fun u _ => hterm u)
    _ = 1 := by
        rw [Finset.sum_const, nsmul_eq_mul, Finset.card_univ, Fintype.card_fun,
          Fintype.card_fin]
        push_cast
        field_simp

/-!
## Shape and conditioning lemmas for the effect repertoire
-/

theorem foldl_marg_shape_other {ι α : Type} [DecidableEq ι] (ax : α → ι) :
    ∀ (L : List α) (t : Tensor ι) (y : ι), (∀ x ∈ L, ax x ≠ y) →
      (L.foldl (fun t x => marginalize_out (ax x) t) t).shape y = t.shape y := by
  intro L
  induction L with
  | nil => intro t y _; rfl
  | cons a rest ih =>
    intro t y h
    rw [List.foldl_cons, ih _ y (fun x hx => h x (List.mem_cons_of_mem a hx))]
    exact Function.update_noteq (Ne.symm (h a (List.mem_cons_self a rest))) 1 t.shape

theorem effect_node_tpm_shape_inr {n : ℕ} (net : Network n) (p i : Fin n) :
    (effect_node_tpm net p).shape (Sum.inr i) = if i = p then 2 else 1 := rfl

theorem effect_node_tpm_shape_inl {n : ℕ} (net : Network n) (p x : Fin n) :
    (effect_node_tpm net p).shape (Sum.inl x) = 2 := rfl

theorem effect_node_table_shape_inr {n : ℕ} (S : Subsystem n)
    (mechanism : List (Fin n)) (p i : Fin n) :
    (effect_node_table S mechanism p).shape (Sum.inr i) = if i = p then 2 else 1 := by
  rw [effect_node_table,
    foldl_marg_shape_other (fun q => Sum.inl q) _ _ _ (fun x _ => by simp)]
  rfl

theorem effect_node_table_shape_inl {n : ℕ} (S : Subsystem n)
    (mechanism : List (Fin n)) (p x : Fin n)
    (hx : x ∈ mechanism ∨ x ∉ S.nodes) :
    (effect_node_table S mechanism p).shape (Sum.inl x) = 2 := by
  rw [effect_node_table,
    foldl_marg_shape_other (fun q => Sum.inl q) _ _ _ ?hne]
  · rfl
  case hne =>
    intro q hq hqx
    rw [List.mem_filter] at hq
    have hq2 : q ∈ S.nodes ∧ q ∉ mechanism := by simpa using hq.2
    have : q = x := by simpa using hqx
    subst this
    rcases hx with h1 | h2
    · exact hq2.2 h1
    · exact h2 hq2.1

theorem effect_accumulated_shape_inr {n : ℕ} (S : Subsystem n)
    (mechanism purview : List (Fin n)) (i : Fin n) :
    (effect_accumulated S mechanism purview).shape (Sum.inr i)
      = purview_shape purview i := by
  rw [effect_accumulated, foldl_tmul_shape_apply]
  have hinit : (ones (Sum.elim (fun _ => (1:ℕ))
      (fun j => if j ∈ purview then 2 else 1)) : Tensor (Fin n ⊕ Fin n)).shape (Sum.inr i)
      = if i ∈ purview then 2 else 1 := rfl
  rw [hinit, purview_shape]
  by_cases hi : i ∈ purview
  · rw [if_pos hi]
    exact foldl_max_const _ purview 2
      (fun p _ => by rw [effect_node_table_shape_inr]; split <;> omega)
  · rw [if_neg hi]
    apply foldl_max_const
    intro p hp
    rw [effect_node_table_shape_inr,
      if_neg (fun h : i = p => hi (by rw [h]; exact hp))]

theorem effect_accumulated_shape_inl_two {n : ℕ} (S : Subsystem n)
    (mechanism purview : List (Fin n)) (x : Fin n)
    (hx : x ∈ mechanism ∨ x ∉ S.nodes) (hp : purview ≠ []) :
    (effect_accumulated S mechanism purview).shape (Sum.inl x) = 2 := by
  rw [effect_accumulated, foldl_tmul_shape_apply]
  have hinit : (ones (Sum.elim (fun _ => (1:ℕ))
      (fun j => if j ∈ purview then 2 else 1)) : Tensor (Fin n ⊕ Fin n)).shape (Sum.inl x)
      = 1 := rfl
  rw [hinit]
  exact foldl_max_eq _ 2 purview 1 hp
    (fun p _ => effect_node_table_shape_inl S mechanism p x hx) (by omega)

theorem effect_accumulated_empty_shape_inl {n : ℕ} (S : Subsystem n)
    (mechanism : List (Fin n)) (x : Fin n) :
    (effect_accumulated S mechanism []).shape (Sum.inl x) = 1 := rfl

theorem foldl_condition_val {ι α : Type} [DecidableEq ι] (ax : α → ι) (v : α → Fin 2) :
    ∀ (L : List α) (acc : Tensor ι) (w : ι → Fin 2),
      (L.foldl (fun t x => condition_at (ax x) (v x) t) acc).val w
        = acc.val (cond_subst ax v L w) := by
  intro L
  induction L with
  | nil => intro acc w; rfl
  | cons a rest ih =>
    intro acc w
    rw [List.foldl_cons, ih]
    rfl

theorem foldl_condition_shape_other {ι α : Type} [DecidableEq ι] (ax : α → ι)
    (v : α → Fin 2) :
    ∀ (L : List α) (acc : Tensor ι) (y : ι), (∀ x ∈ L, ax x ≠ y) →
      (L.foldl (fun t x => condition_at (ax x) (v x) t) acc).shape y = acc.shape y := by
  intro L
  induction L with
  | nil => intro acc y _; rfl
  | cons a rest ih =>
    intro acc y h
    rw [List.foldl_cons, ih _ y (fun x hx => h x (List.mem_cons_of_mem a hx))]
    exact Function.update_noteq (Ne.symm (h a (List.mem_cons_self a rest))) 1 acc.shape

theorem cond_subst_inl {n : ℕ} (v : Fin n → Fin 2) :
    ∀ (L : List (Fin n)) (w : (Fin n ⊕ Fin n) → Fin 2) (q : Fin n),
      cond_subst Sum.inl v L w (Sum.inl q) = if q ∈ L then v q else w (Sum.inl q) := by
  intro L
  induction L with
  | nil => intro w q; simp [cond_subst]
  | cons a rest ih =>
    intro w q
    show Function.update (cond_subst Sum.inl v rest w) (Sum.inl a) (v a) (Sum.inl q) = _
    by_cases hq : q = a
    · subst hq
      rw [Function.update_same, if_pos (List.mem_cons_self q rest)]
    · have hne : (Sum.inl q : Fin n ⊕ Fin n) ≠ Sum.inl a := by simp [hq]
      rw [Function.update_noteq hne (v a) (cond_subst Sum.inl v rest w), ih]
      by_cases hq2 : q ∈ rest
      · rw [if_pos hq2, if_pos (List.mem_cons_of_mem a hq2)]
      · rw [if_neg hq2, if_neg (by simp [hq, hq2])]

theorem cond_subst_inr {n : ℕ} (v : Fin n → Fin 2) :
    ∀ (L : List (Fin n)) (w : (Fin n ⊕ Fin n) → Fin 2) (i : Fin n),
      cond_subst Sum.inl v L w (Sum.inr i) = w (Sum.inr i) := by
  intro L
  induction L with
  | nil => intro w i; rfl
  | cons a rest ih =>
    intro w i
    show Function.update (cond_subst Sum.inl v rest w) (Sum.inl a) (v a) (Sum.inr i) = _
    have hne : (Sum.inr i : Fin n ⊕ Fin n) ≠ Sum.inl a := by simp
    rw [Function.update_noteq hne (v a) (cond_subst Sum.inl v rest w), ih]

theorem foldlM_condition_ok {ι α : Type} [DecidableEq ι] (ax : α → ι) (v : α → Fin 2) :
    ∀ (L : List α) (acc : Tensor ι), (L.map ax).Nodup →
      (∀ x ∈ L, ((v x : ℕ) < acc.shape (ax x))) →
      L.foldlM (fun t x => condition_checked (ax x) (v x) t) acc
        = Except.ok (L.foldl (fun t x => condition_at (ax x) (v x) t) acc) := by
  intro L
  induction L with
  | nil => intro acc _ _; rfl
  | cons a rest ih =>
    intro acc hnd hlt
    rw [List.map_cons, List.nodup_cons] at hnd
    rw [List.foldlM_cons]
    have hchk : condition_checked (ax a) (v a) acc
        = Except.ok (condition_at (ax a) (v a) acc) := by
      rw [condition_checked, if_pos (hlt a (List.mem_cons_self a rest))]
    rw [hchk]
    show rest.foldlM (fun t x => condition_checked (ax x) (v x) t)
        (condition_at (ax a) (v a) acc) = _
    rw [List.foldl_cons]
    apply ih _ hnd.2
    intro x hx
    show (v x : ℕ) < Function.update acc.shape (ax a) 1 (ax x)
    have hne2 : ax x ≠ ax a := by
      intro he
      exact hnd.1 (he ▸ List.mem_map_of_mem ax hx)
    rw [Function.update_noteq hne2 1 acc.shape]
    exact hlt x (List.mem_cons_of_mem a hx)

theorem foldlM_condition_error {ι α : Type} [DecidableEq ι] (ax : α → ι) (v : α → Fin 2) :
    ∀ (L : List α) (acc : Tensor ι), (∀ x ∈ L, acc.shape (ax x) = 1) →
      (∃ x ∈ L, v x = 1) →
      ∃ e, L.foldlM (fun t x => condition_checked (ax x) (v x) t) acc
        = Except.error e := by
  intro L
  induction L with
  | nil =>
    intro acc _ hex
    obtain ⟨x, hx, _⟩ := hex
    exact absurd hx (List.not_mem_nil x)
  | cons a rest ih =>
    intro acc hsh hex
    rw [List.foldlM_cons]
    by_cases hva : v a = 1
    · refine ⟨"IndexError", ?_⟩
      have hchk : condition_checked (ax a) (v a) acc = Except.error "IndexError" := by
        rw [condition_checked, if_neg]
        rw [hsh a (List.mem_cons_self a rest), hva]
        omega
      rw [hchk]
      rfl
    · have hva0 : v a = 0 := by
        have h2 : ∀ b : Fin 2, b ≠ 1 → b = 0 := by decide
        exact h2 _ hva
      have hchk : condition_checked (ax a) (v a) acc
          = Except.ok (condition_at (ax a) (v a) acc) := by
        rw [condition_checked, if_pos]
        rw [hva0, hsh a (List.mem_cons_self a rest)]
        exact Nat.zero_lt_one
      rw [hchk]
      show ∃ e, rest.foldlM (fun t x => condition_checked (ax x) (v x) t)
          (condition_at (ax a) (v a) acc) = Except.error e
      apply ih
      · intro x hx
        show Function.update acc.shape (ax a) 1 (ax x) = 1
        by_cases he : ax x = ax a
        · rw [he, Function.update_same]
        · rw [Function.update_noteq he 1 acc.shape]
          exact hsh x (List.mem_cons_of_mem a hx)
      · obtain ⟨x, hx, hvx⟩ := hex
        rcases List.mem_cons.1 hx with h1 | h2
        · exact absurd (h1 ▸ hvx) hva
        · exact ⟨x, h2, hvx⟩

theorem effect_cond_nodes_nodup {n : ℕ} (S : Subsystem n) (mechanism : List (Fin n)) :
    (effect_cond_nodes S mechanism).Nodup :=
  (List.nodup_finRange n).filter _

theorem mem_effect_cond_nodes {n : ℕ} (S : Subsystem n) (mechanism : List (Fin n))
    (x : Fin n) :
    x ∈ effect_cond_nodes S mechanism ↔ (x ∈ mechanism ∨ x ∉ S.nodes) := by
  simp [effect_cond_nodes, List.mem_filter, List.mem_finRange]

theorem effect_repertoire_ok {n : ℕ} (S : Subsystem n) (mechanism purview : List (Fin n))
    (hin : ∀ x ∈ effect_cond_nodes S mechanism,
      ((S.current_state x : ℕ)
        < (effect_accumulated S mechanism purview).shape (Sum.inl x))) :
    effect_repertoire S mechanism purview
      = Except.ok (reshape_second_half (effect_conditioned S mechanism purview)) := by
  unfold effect_repertoire effect_conditioned
  rw [foldlM_condition_ok Sum.inl S.current_state _ _
      ((effect_cond_nodes_nodup S mechanism).map Sum.inl_injective) hin]
  rfl

theorem effect_repertoire_error {n : ℕ} (S : Subsystem n)
    (mechanism purview : List (Fin n))
    (hsh : ∀ x ∈ effect_cond_nodes S mechanism,
      (effect_accumulated S mechanism purview).shape (Sum.inl x) = 1)
    (hex : ∃ x ∈ effect_cond_nodes S mechanism, S.current_state x = 1) :
    ∃ e, effect_repertoire S mechanism purview = Except.error e := by
  obtain ⟨e, he⟩ := foldlM_condition_error Sum.inl S.current_state _ _ hsh hex
  refine ⟨e, ?_⟩
  unfold effect_repertoire
  rw [he]
  rfl

theorem effect_reshaped_val {n : ℕ} (S : Subsystem n) (mechanism purview : List (Fin n))
    (idx : Fin n → Fin 2) :
    (reshape_second_half (effect_conditioned S mechanism purview)).val idx
      = (purview.map (fun p =>
          (effect_node_table S mechanism p).val (effect_final_idx S mechanism idx))).prod := by
  show (effect_conditioned S mechanism purview).val (Sum.elim (fun _ => 0) idx) = _
  rw [effect_conditioned, foldl_condition_val]
  have hsubst : cond_subst Sum.inl S.current_state (effect_cond_nodes S mechanism)
      (Sum.elim (fun _ => 0) idx) = effect_final_idx S mechanism idx := by
    funext y
    cases y with
    | inl q =>
      rw [cond_subst_inl]
      show (if q ∈ effect_cond_nodes S mechanism then S.current_state q else (0 : Fin 2))
          = _
      rfl
    | inr i =>
      rw [cond_subst_inr]
      rfl
  rw [hsubst, effect_accumulated, foldl_tmul_val]
  show 1 * _ = _
  rw [one_mul]

theorem effect_reshaped_shape {n : ℕ} (S : Subsystem n)
    (mechanism purview : List (Fin n)) (i : Fin n) :
    (reshape_second_half (effect_conditioned S mechanism purview)).shape i
      = purview_shape purview i := by
  show (effect_conditioned S mechanism purview).shape (Sum.inr i) = _
  rw [effect_conditioned,
    foldl_condition_shape_other Sum.inl S.current_state _ _ _ (fun x _ => by simp),
    effect_accumulated_shape_inr]

/-!
## Claims C2, C7, C10 about `effect_repertoire`
-/

theorem effect_ok_result {n : ℕ} (S : Subsystem n) (mechanism purview : List (Fin n))
    (t : Tensor (Fin n))
    (hok : effect_repertoire S mechanism purview = Except.ok t) :
    t = reshape_second_half (effect_conditioned S mechanism purview) := by
  by_cases hp : purview = []
  · subst hp
    by_cases hex : ∃ x ∈ effect_cond_nodes S mechanism, S.current_state x = 1
    · obtain ⟨e, he⟩ := effect_repertoire_error S mechanism []
        (fun x _ => effect_accumulated_empty_shape_inl S mechanism x) hex
      rw [he] at hok
      exact absurd hok (by simp)
    · push_neg at hex
      have hin : ∀ x ∈ effect_cond_nodes S mechanism,
          ((S.current_state x : ℕ)
            < (effect_accumulated S mechanism []).shape (Sum.inl x)) := by
        intro x hx
        rw [effect_accumulated_empty_shape_inl]
        have h0 : S.current_state x = 0 := by
          have h2 : ∀ b : Fin 2, b ≠ 1 → b = 0 := by decide
          exact h2 _ (hex x hx)
        rw [h0]
        exact Nat.zero_lt_one
      rw [effect_repertoire_ok S mechanism [] hin] at hok
      exact (Except.ok.inj hok).symm
  · have hin : ∀ x ∈ effect_cond_nodes S mechanism,
        ((S.current_state x : ℕ)
          < (effect_accumulated S mechanism purview).shape (Sum.inl x)) := by
      intro x hx
      rw [effect_accumulated_shape_inl_two S mechanism purview x
        ((mem_effect_cond_nodes S mechanism x).1 hx) hp]
      exact (S.current_state x).is_lt
    rw [effect_repertoire_ok S mechanism purview hin] at hok
    exact (Except.ok.inj hok).symm

theorem total_sum_reshaped {n : ℕ} (S : Subsystem n) (mechanism purview : List (Fin n))
    (hnd : purview.Nodup) :
    total_sum (reshape_second_half (effect_conditioned S mechanism purview)) = 1 := by
  have hsh : (reshape_second_half (effect_conditioned S mechanism purview)).shape
      = purview_shape purview := funext (effect_reshaped_shape S mechanism purview)
  show Finset.sum
      (valid_indices (reshape_second_half (effect_conditioned S mechanism purview)).shape)
      (reshape_second_half (effect_conditioned S mechanism purview)).val = 1
  rw [hsh]
  have hval : ∀ idx : Fin n → Fin 2,
      (reshape_second_half (effect_conditioned S mechanism purview)).val idx
        = Finset.prod Finset.univ (fun i =>
            if i ∈ purview then
              (effect_node_table S mechanism i).val
                (Function.update (effect_final_idx S mechanism (fun _ => 0))
                  (Sum.inr i) (idx i))
            else 1) := by
    intro idx
    rw [effect_reshaped_val, ← List.prod_toFinset _ hnd]
    have hfac : ∀ p ∈ purview.toFinset,
        (effect_node_table S mechanism p).val (effect_final_idx S mechanism idx)
          = (if p ∈ purview then
              (effect_node_table S mechanism p).val
                (Function.update (effect_final_idx S mechanism (fun _ => 0))
                  (Sum.inr p) (idx p))
            else 1) := by
      intro p hpmem
      rw [if_pos (List.mem_toFinset.1 hpmem)]
      apply effect_node_table_val_congr
      · intro i
        have hne : (Sum.inl i : Fin n ⊕ Fin n) ≠ Sum.inr p := by simp
        rw [Function.update_noteq hne]
        rfl
      · rw [Function.update_same]
        rfl
    rw [Finset.prod_congr rfl hfac]
    apply Finset.prod_subset (Finset.subset_univ purview.toFinset)
    intro i _ hnotin
    rw [if_neg (fun hmem => hnotin (List.mem_toFinset.2 hmem))]
  rw [Finset.sum_congr rfl (fun idx _ => hval idx)]
  have hps := Finset.prod_univ_sum
    (fun i => Finset.filter (fun v : Fin 2 => (v : ℕ) < purview_shape purview i)
      Finset.univ)
    (fun i v =>
      if i ∈ purview then
        (effect_node_table S mechanism i).val
          (Function.update (effect_final_idx S mechanism (fun _ => 0)) (Sum.inr i) v)
      else 1)
  rw [show Finset.sum (valid_indices (purview_shape purview)) _ = _ from hps.symm]
  apply Finset.prod_eq_one
  intro i _
  by_cases hi : i ∈ purview
  · have h2 : purview_shape purview i = 2 := by simp [purview_shape, hi]
    rw [h2]
    have hfil : Finset.filter (fun v : Fin 2 => (v : ℕ) < 2) Finset.univ
        = Finset.univ := by decide
    rw [hfil]
    rw [show (∑ v : Fin 2, (if i ∈ purview then
        (effect_node_table S mechanism i).val
          (Function.update (effect_final_idx S mechanism (fun _ => 0)) (Sum.inr i) v)
        else 1)) = _ from Fin.sum_univ_two _]
    rw [if_pos hi, if_pos hi]
    exact effect_node_table_slices S mechanism i (effect_final_idx S mechanism (fun _ => 0))
  · have h1 : purview_shape purview i = 1 := by simp [purview_shape, hi]
    rw [h1]
    have hfil : Finset.filter (fun v : Fin 2 => (v : ℕ) < 1) Finset.univ
        = ({0} : Finset (Fin 2)) := by decide
    rw [hfil, Finset.sum_singleton, if_neg hi]

/-- C2 (amended): whenever `effect_repertoire` returns a tensor — which
it does for every duplicate-free non-empty purview, and for the empty
purview exactly when no mechanism-or-external node is currently ON —
that tensor sums to 1 over its non-singleton axes, with no explicit
normalization step, the node tables being well-formed probability
tables. -/
theorem effect_repertoire_sums_to_one {n : ℕ} (S : Subsystem n)
    (mechanism purview : List (Fin n)) (t : Tensor (Fin n))
    (hnd : purview.Nodup)
    (hwf : ∀ (k : Fin n) (w : Fin n → Fin 2),
      0 ≤ S.network.tpm k w ∧ S.network.tpm k w ≤ 1)
    (hok : effect_repertoire S mechanism purview = Except.ok t) :
    total_sum t = 1 := by
  rw [effect_ok_result S mechanism purview t hok]
  exact total_sum_reshaped S mechanism purview hnd

/-- C2, counterexample to the claim as stated: with a well-formed
one-node network, mechanism `[0]` currently ON and empty purview,
`effect_repertoire` raises an `IndexError` instead of returning a tensor
summing to 1. -/
theorem effect_repertoire_sums_counterexample :
    (∀ (k : Fin 1) (w : Fin 1 → Fin 2),
      0 ≤ coin_on.network.tpm k w ∧ coin_on.network.tpm k w ≤ 1)
    ∧ effect_repertoire coin_on [0] [] = Except.error "IndexError" :=
  ⟨fun k w => by norm_num [coin_on, coin_network], rfl⟩

theorem effect_repertoire_sums_to_one_witness :
    ∃ t, effect_repertoire coin_off [] [(0 : Fin 1)] = Except.ok t
      ∧ total_sum t = 1 := by
  have hin : ∀ x ∈ effect_cond_nodes coin_off [],
      ((coin_off.current_state x : ℕ)
        < (effect_accumulated coin_off [] [0]).shape (Sum.inl x)) := by
    intro x hx
    rw [effect_accumulated_shape_inl_two coin_off [] [0] x
      ((mem_effect_cond_nodes coin_off [] x).1 hx) (by decide)]
    exact (coin_off.current_state x).is_lt
  have hok : effect_repertoire coin_off [] [0]
      = Except.ok (reshape_second_half (effect_conditioned coin_off [] [0])) :=
    effect_repertoire_ok coin_off [] [0] hin
  exact ⟨_, hok,
    effect_repertoire_sums_to_one coin_off [] [0] _ (by decide)
      (fun k w => by norm_num [coin_off, coin_network]) hok⟩

/-- C7: for every non-empty purview, both repertoires return an
`n`-axis tensor whose axis for node `i` has size 2 if `i` is in the
purview and size 1 otherwise — `cause_repertoire` for every non-empty
mechanism, `effect_repertoire` for every mechanism (the empty one
included, as in `unconstrained_effect_repertoire`). -/
theorem repertoire_shapes {n : ℕ} (S : Subsystem n)
    (mechanism purview : List (Fin n)) (hp : purview ≠ []) :
    (mechanism ≠ [] →
      ∃ t, cause_repertoire S mechanism purview = CauseResult.dist t
        ∧ t.shape = purview_shape purview)
    ∧ (∃ t, effect_repertoire S mechanism purview = Except.ok t
      ∧ t.shape = purview_shape purview) := by
  constructor
  · intro hm
    refine ⟨normalize_cjd (accumulated_cjd S mechanism purview), ?_, ?_⟩
    · have h1 : ¬ purview.length = 0 := by rw [List.length_eq_zero]; exact hp
      have h2 : ¬ mechanism.length = 0 := by rw [List.length_eq_zero]; exact hm
      rw [cause_repertoire, if_neg h1, if_neg h2]
    · have hnorm : (normalize_cjd (accumulated_cjd S mechanism purview)).shape
          = (accumulated_cjd S mechanism purview).shape := by
        rw [normalize_cjd]
        split <;> rfl
      rw [hnorm, accumulated_cjd_eq_spec]
      rfl
  · have hin : ∀ x ∈ effect_cond_nodes S mechanism,
        ((S.current_state x : ℕ)
          < (effect_accumulated S mechanism purview).shape (Sum.inl x)) := by
      intro x hx
      rw [effect_accumulated_shape_inl_two S mechanism purview x
        ((mem_effect_cond_nodes S mechanism x).1 hx) hp]
      exact (S.current_state x).is_lt
    refine ⟨reshape_second_half (effect_conditioned S mechanism purview),
      effect_repertoire_ok S mechanism purview hin, ?_⟩
    exact funext (effect_reshaped_shape S mechanism purview)

theorem repertoire_shapes_witness :
    ((([1] : List (Fin 2)) ≠ []) ∧ (([0] : List (Fin 2)) ≠ [])) ∧
      ((∃ t, cause_repertoire copy_subsystem [1] [0] = CauseResult.dist t
          ∧ t.shape = purview_shape [0])
       ∧ (∃ t, effect_repertoire copy_subsystem [1] [0] = Except.ok t
          ∧ t.shape = purview_shape [0])
       ∧ (∃ t, effect_repertoire copy_subsystem [] [0] = Except.ok t
          ∧ t.shape = purview_shape [0])) :=
  ⟨⟨by decide, by decide⟩,
   ⟨(repertoire_shapes copy_subsystem [1] [0] (by decide)).1 (by decide),
    (repertoire_shapes copy_subsystem [1] [0] (by decide)).2,
    (repertoire_shapes copy_subsystem [] [0] (by decide)).2⟩⟩

/-- C10: on an empty purview, the current-state axes of the accumulator
all have size 1, so the conditioning step indexes singleton axes with
`current_state` values: the call fails with an out-of-range index error
whenever some node of `mechanism ∪ external_nodes` is currently ON, and
otherwise returns the all-ones tensor of shape `(1,...,1)` with `n`
axes. -/
theorem effect_repertoire_empty_purview {n : ℕ} (S : Subsystem n)
    (mechanism : List (Fin n)) :
    ((∃ x, (x ∈ mechanism ∨ x ∉ S.nodes) ∧ S.current_state x = 1) →
      ∃ e, effect_repertoire S mechanism [] = Except.error e)
    ∧ ((∀ x, (x ∈ mechanism ∨ x ∉ S.nodes) → S.current_state x = 0) →
      effect_repertoire S mechanism [] = Except.ok (ones (fun _ => 1))) := by
  constructor
  · intro hex
    obtain ⟨x, hx, hcur⟩ := hex
    exact effect_repertoire_error S mechanism []
      (fun y _ => effect_accumulated_empty_shape_inl S mechanism y)
      ⟨x, (mem_effect_cond_nodes S mechanism x).2 hx, hcur⟩
  · intro hall
    have hin : ∀ x ∈ effect_cond_nodes S mechanism,
        ((S.current_state x : ℕ)
          < (effect_accumulated S mechanism []).shape (Sum.inl x)) := by
      intro x hx
      rw [effect_accumulated_empty_shape_inl,
        hall x ((mem_effect_cond_nodes S mechanism x).1 hx)]
      exact Nat.zero_lt_one
    rw [effect_repertoire_ok S mechanism [] hin]
    congr 1
    rw [Tensor.ext_iff]
    constructor
    · funext i
      rw [effect_reshaped_shape]
      simp [purview_shape, ones]
    · funext idx
      rw [effect_reshaped_val]
      simp [ones]

theorem effect_repertoire_empty_purview_witness :
    (∃ e, effect_repertoire coin_on [0] [] = Except.error e)
    ∧ effect_repertoire coin_off [] [] = Except.ok (ones (fun _ => 1)) :=
  ⟨(effect_repertoire_empty_purview coin_on [0]).1 ⟨0, Or.inl (by decide), rfl⟩,
   (effect_repertoire_empty_purview coin_off []).2 (fun x _ => rfl)⟩

/-!
## Claims C5 and C9 about `Subsystem.__eq__`
-/

theorem np_truth_error_of_two_le (bs : List Bool) (h : 2 ≤ bs.length) :
    np_bool_array_truth bs = Except.error "ValueError" := by
  cases bs with
  | nil => simp at h
  | cons a tail =>
    cases tail with
    | nil => simp at h
    | cons b r => rfl

theorem state_cmp_length {n : ℕ} (a b : Fin n → Fin 2) :
    (state_cmp a b).length = n := by
  simp [state_cmp]

/-- C9: with node sets equal and state vectors of length at least 2, the
elementwise comparison array reaches the boolean `and`, whose truth-value
conversion raises `ValueError`; an `ok` result can only be `false`, from
the node-set short circuit. -/
theorem subsystem_eq_raises {n : ℕ} (h2 : 2 ≤ n) (s o : Subsystem n) (netEq : Bool) :
    (s.nodes = o.nodes → Subsystem.eq s o netEq = Except.error "ValueError")
    ∧ (∀ b, Subsystem.eq s o netEq = Except.ok b → b = false ∧ s.nodes ≠ o.nodes) := by
  have herr : np_bool_array_truth (state_cmp s.past_state o.past_state)
      = Except.error "ValueError" :=
    np_truth_error_of_two_le _ (by rw [state_cmp_length]; exact h2)
  have herr3 : s.nodes = o.nodes →
      Subsystem.eq s o netEq = Except.error "ValueError" := by
    intro hnn
    unfold Subsystem.eq
    rw [if_pos hnn, herr]
    rfl
  refine ⟨herr3, ?_⟩
  intro b hb
  by_cases hnn : s.nodes = o.nodes
  · rw [herr3 hnn] at hb
    exact absurd hb (by simp)
  · constructor
    · have hok : Subsystem.eq s o netEq = Except.ok false := by
        unfold Subsystem.eq
        rw [if_neg hnn]
        rfl
      rw [hok] at hb
      exact (Except.ok.inj hb).symm
    · exact hnn

theorem subsystem_eq_raises_witness :
    ((2 ≤ 2) ∧ copy_subsystem.nodes = copy_subsystem.nodes) ∧
      Subsystem.eq copy_subsystem copy_subsystem true = Except.error "ValueError" :=
  ⟨⟨by omega, rfl⟩,
   (subsystem_eq_raises (by omega) copy_subsystem copy_subsystem true).1 rfl⟩

/-- C5 (code bug): the docstring of `__eq__` says two subsystems are
equal when their node sets, current and past states, and networks are
equal, but the implementation compares `self.current_state` with the
*other* subsystem's `past_state`.  `mismatch_subsystem` compared with
itself — all four documented components trivially equal — evaluates
falsy (`array([False])`), because its current state `[0]` differs from
its past state `[1]`. -/
theorem subsystem_eq_defect :
    mismatch_subsystem.nodes = mismatch_subsystem.nodes
    ∧ mismatch_subsystem.current_state = mismatch_subsystem.current_state
    ∧ mismatch_subsystem.past_state = mismatch_subsystem.past_state
    ∧ Subsystem.eq mismatch_subsystem mismatch_subsystem true = Except.ok false :=
  ⟨rfl, rfl, rfl, rfl⟩

end Cyphi
